import Mathlib

/-!
Verification development for the tcb-cli manga downloader.

Shallow embedding conventions:
  * Go strings are modelled as lists of characters (abbreviation Str), so that
    splitting, trimming and formatting can be reasoned about structurally.
  * Go float64 chapter numbers are modelled as rationals (Rat).  The chapter
    numbers handled by the program are short decimal literals, on which
    float64 round-trips exactly through parsing and %g formatting, so the
    rational model agrees with the Go behaviour on the modelled fragment.
  * Errors are modelled with Except; the error constructors name the three
    user-input parse-error kinds of the program.
  * File-system effects of the archive step are modelled as an explicit
    outcome record computed from the readability of the source files.
-/

namespace TCB

/-- Go strings, modelled as lists of characters. -/
abbrev Str := List Char

/-- Model of Go strings.Split with a single-character separator: splitting the
empty string yields one empty field, and every separator occurrence starts a
new field. -/
def splitOnChar (sep : Char) : Str → List Str
  | [] => [[]]
  | c :: cs =>
    if c = sep then [] :: splitOnChar sep cs
    else
      match splitOnChar sep cs with
      | [] => [[c]]
      | p :: ps => (c :: p) :: ps

/-- Model of Go strings.TrimSpace: drop whitespace from both ends. -/
def trimSpace (s : Str) : Str :=
  ((s.dropWhile Char.isWhitespace).reverse.dropWhile Char.isWhitespace).reverse

/-- Model of Go strings.Trim with a cutset: drop characters of the cutset from
both ends. -/
def trimCutset (cut : Str) (s : Str) : Str :=
  ((s.dropWhile (fun c => cut.contains c)).reverse.dropWhile
    (fun c => cut.contains c)).reverse

/-- Reads a run of decimal digits as a natural number; fails on any non-digit
character, and returns 0 for the empty list. -/
def digitsToNat (cs : Str) : Option Nat :=
  cs.foldl
    (fun acc c =>
      match acc with
      | none => none
      | some n => if c.isDigit then some (10 * n + (c.toNat - 48)) else none)
    (some 0)

/-- Model of Go strconv.ParseFloat restricted to the plain decimal forms the
program manipulates: an optional sign followed by decimal digits with an
optional fractional part (at least one digit overall).  Exponent, hexadecimal,
infinity and NaN forms of ParseFloat are outside the modelled fragment. -/
def parseFloat (s : Str) : Option Rat :=
  let signAndBody : Bool × Str :=
    match s with
    | '-' :: rest => (true, rest)
    | '+' :: rest => (false, rest)
    | _ => (false, s)
  let neg := signAndBody.1
  let body := signAndBody.2
  match splitOnChar '.' body with
  | [ip] =>
    if ip = [] then none
    else
      match digitsToNat ip with
      | none => none
      | some n =>
        let v : Rat := mkRat n 1
        some (if neg then -v else v)
  | [ip, fp] =>
    if ip = [] ∧ fp = [] then none
    else
      match digitsToNat ip, digitsToNat fp with
      | some i, some f =>
        let v : Rat := mkRat (i * 10 ^ fp.length + f) (10 ^ fp.length)
        some (if neg then -v else v)
      | _, _ => none
  | _ => none

/-- The three user-input parse-error kinds of the selection parser, carrying
the offending token text exactly as the Go error messages do. -/
inductive ParseErr where
  | invalidRangeFormat (tok : Str)
  | invalidNumber (tok : Str)
  | invalidRange (startTok endTok : Str)
deriving DecidableEq, Repr

/-- Model of writing chapterMap[chapter] = true into the Go set-map: the map is
modelled as a duplicate-free list of keys, extended only when the key is new. -/
def insertChapter (chapterMap : List Rat) (c : Rat) : List Rat :=
  if c ∈ chapterMap then chapterMap else chapterMap ++ [c]

/-- Embedding of parseRange from main.go: parse both trimmed bounds, then
reject ranges whose start exceeds their end. -/
def parseRange (p0 p1 : Str) : Except ParseErr (Rat × Rat) :=
  match parseFloat (trimSpace p0) with
  | none => .error (.invalidNumber p0)
  | some s =>
    match parseFloat (trimSpace p1) with
    | none => .error (.invalidNumber p1)
    | some e =>
      if s > e then .error (.invalidRange p0 p1) else .ok (s, e)

/-- Embedding of the per-token body of the parseChapterSelection loop in
main.go: a token containing a dash is treated as a range (split on the dash,
exactly two pieces required, bounds parsed, every available chapter inside the
bounds inserted); any other token is parsed as a single number and inserted
without an availability check. -/
def parseToken (availableChapters : List Rat) (chapterMap : List Rat)
    (part : Str) : Except ParseErr (List Rat) :=
  if '-' ∈ part then
    match splitOnChar '-' part with
    | [p0, p1] =>
      match parseRange p0 p1 with
      | .error e => .error e
      | .ok (s, e) =>
        .ok (availableChapters.foldl
          (fun m c => if s ≤ c ∧ c ≤ e then insertChapter m c else m)
          chapterMap)
    | _ => .error (.invalidRangeFormat part)
  else
    match parseFloat (trimSpace part) with
    | none => .error (.invalidNumber part)
    | some c => .ok (insertChapter chapterMap c)

/-- Embedding of mapToSlice from main.go: the set-map's keys sorted
ascending. -/
def mapToSlice (chapterMap : List Rat) : List Rat :=
  List.insertionSort (· ≤ ·) chapterMap

/-- Embedding of parseChapterSelection from main.go: split the input on
commas, process every token against the set-map, and return the sorted keys. -/
def parseChapterSelection (input : Str) (availableChapters : List Rat) :
    Except ParseErr (List Rat) :=
  match (splitOnChar ',' input).foldlM (parseToken availableChapters) [] with
  | .error e => .error e
  | .ok m => .ok (mapToSlice m)

/-- Comma-joined token list, the inverse of splitting an input on commas. -/
def joinTokens : List Str → Str
  | [] => []
  | [t] => t
  | t :: ts => t ++ ',' :: joinTokens ts

/-- The chapter record of the program (scraping fields omitted: only the
number is used as the lookup key downstream). -/
structure Chapter where
  number : Rat
  title : Str
deriving DecidableEq, Repr

/-- Embedding of getSelectedChapters: resolve each selected number through the
chapter map, keeping only the numbers that have a chapter, in selection
order. -/
def getSelectedChapters (selectedNumbers : List Rat)
    (chapterMap : List (Rat × Chapter)) : List Chapter :=
  selectedNumbers.filterMap (fun n => chapterMap.lookup n)

/-- The characters removed from chapter titles, exactly the regex character
class of getCleanChapterTitle. -/
def illegalChars : Str := ['<', '>', ':', '"', '/', '\\', '|', '?', '*']

/-- Embedding of getCleanChapterTitle from main.go: trim spaces and dots from
both ends, then delete every illegal character. -/
def getCleanChapterTitle (title : Str) : Str :=
  (trimCutset [' ', '.'] title).filter (fun c => !(illegalChars.contains c))

/-- Fuel-driven decimal digit printer (most significant digit first).  The
fuel argument makes the recursion structural so that terms reduce inside the
kernel; natDigits supplies enough fuel for every input. -/
def natDigitsCore : Nat → Nat → Str
  | 0, _ => []
  | fuel + 1, n =>
    if n < 10 then [Nat.digitChar n]
    else natDigitsCore fuel (n / 10) ++ [Nat.digitChar (n % 10)]

/-- Decimal digit string of a natural number, most significant digit first. -/
def natDigits (n : Nat) : Str :=
  natDigitsCore (n + 1) n

/-- Model of fmt %03d applied to a natural number: the decimal digits, left
padded with zeros to a minimum width of three characters. -/
def format03d (n : Nat) : Str :=
  List.replicate (3 - (natDigits n).length) '0' ++ natDigits n

/-- Model of fmt %g on a non-negative rational n/d in lowest terms whose
decimal expansion terminates (every float64 value the program formats is of
this shape): the shortest decimal rendering, with a decimal point exactly when
d is not 1.  Non-terminating denominators (impossible for float64 values) fall
back to the integer part digits. -/
def formatGPos (n d : Nat) : Str :=
  if d = 1 then natDigits n
  else
    match (List.range 64).find? (fun k => 10 ^ k % d = 0) with
    | none => natDigits n
    | some k =>
      let ds := natDigits (n * (10 ^ k / d))
      let padded := List.replicate (k + 1 - ds.length) '0' ++ ds
      padded.take (padded.length - k) ++ '.' :: padded.drop (padded.length - k)

/-- Model of fmt %03g: the %g rendering padded with zeros (after the sign) to
a minimum total width of three characters. -/
def format03g (q : Rat) : Str :=
  if q < 0 then
    '-' :: (List.replicate (2 - (formatGPos q.num.natAbs q.den).length) '0'
      ++ formatGPos q.num.natAbs q.den)
  else
    List.replicate (3 - (formatGPos q.num.natAbs q.den).length) '0'
      ++ formatGPos q.num.natAbs q.den

/-- Embedding of the dirPath computation in downloadImages: join the download
location, the manga title and the %03g-number-plus-title chapter directory
name with path separators, then trim surrounding whitespace.  filepath.Join is
modelled as separator insertion. -/
def chapterDirPath (base mangaTitle : Str) (number : Rat) (title : Str) :
    Str :=
  trimSpace (base ++ '/' :: mangaTitle ++ '/'
    :: (format03g number ++ ' ' :: title))

/-- Model of Go filepath.Ext: the suffix of the last path element starting at
its last dot, or empty when the last element has no dot. -/
def filepathExt (p : Str) : Str :=
  let seg := p.reverse.takeWhile (fun c => c ≠ '/')
  if seg.contains '.' then '.' :: (seg.takeWhile (fun c => c ≠ '.')).reverse
  else []

/-- Embedding of the per-image filename computation in downloadImages: the
1-based image position rendered with %03d, followed by the extension of the
source URL. -/
def imageFilename (i : Nat) (imageURL : Str) : Str :=
  format03d (i + 1) ++ filepathExt imageURL

/-- Embedding of the cbzFilename computation in downloadImages: the archive
sits in the manga directory and is named like the chapter directory with a
.cbz suffix. -/
def cbzPath (base mangaTitle : Str) (number : Rat) (title : Str) : Str :=
  base ++ '/' :: mangaTitle ++ '/'
    :: (format03g number ++ ' ' :: title ++ ['.', 'c', 'b', 'z'])

/-- Model of creating the zip archive in createCbzArchive: the walk adds the
source files in order and stops at the first unreadable file.  Returns the
entries written into the archive and whether the walk failed.  The archive
file itself is created before any entry is written (os.Create) and is left on
disk in both outcomes. -/
def createCbzArchive : List (Str × Bool) → List Str × Bool
  | [] => ([], false)
  | (name, readable) :: rest =>
    if readable then
      let r := createCbzArchive rest
      (name :: r.1, r.2)
    else ([], true)

/-- Observable file-system outcome of the archive step of downloadImages. -/
structure ArchiveOutcome where
  chapterDirKept : Bool
  archiveFileCreated : Bool
  archiveEntries : List Str
  failed : Bool
deriving DecidableEq, Repr

/-- Embedding of the archive step at the end of downloadImages: when archive
mode is off nothing happens; otherwise the archive is created, and the chapter
directory is removed exactly when the archive walk reported no error. -/
def archiveStep (createCbz : Bool) (files : List (Str × Bool)) :
    ArchiveOutcome :=
  if createCbz then
    let r := createCbzArchive files
    if r.2 then ⟨true, true, r.1, true⟩
    else ⟨false, true, r.1, false⟩
  else ⟨true, false, [], false⟩

/-- Matcher for the regex Chapter (\d+(\.\d+)?) anchored at the start of the
string: requires the literal prefix followed by at least one digit, takes the
maximal digit run, then optionally a dot followed by a non-empty maximal digit
run; returns the text of the capture group. -/
def matchChapterAt (s : Str) : Option Str :=
  if s.take 8 = "Chapter ".toList then
    let rest := s.drop 8
    let ds := rest.takeWhile Char.isDigit
    if ds = [] then none
    else
      match rest.drop ds.length with
      | '.' :: r3 =>
        let fs := r3.takeWhile Char.isDigit
        if fs = [] then some ds else some (ds ++ '.' :: fs)
      | _ => some ds
  else none

/-- Leftmost match of the chapter-number regex over the whole string, as
FindStringSubmatch produces it. -/
def findChapterMatch : Str → Option Str
  | [] => none
  | c :: rest =>
    match matchChapterAt (c :: rest) with
    | some m => some m
    | none => findChapterMatch rest

/-- Embedding of getChapterNumber: the parsed capture of the leftmost regex
match, plus a flag telling whether a non-nil error was returned.  With no
match the function returns the zero value together with the nil error held in
err at that point. -/
def getChapterNumber (name : Str) : Rat × Bool :=
  match findChapterMatch name with
  | some m =>
    match parseFloat m with
    | some v => (v, false)
    | none => (0, true)
  | none => (0, false)

/-- Modelled from the spec: the Boolean reading of the claim hypothesis that a
name contains no substring matching the pattern Chapter followed by a number —
true exactly when some position starts with the literal Chapter-space prefix
followed by a digit (the minimal requirement for the regex to match there). -/
def specHasChapterPattern : Str → Bool
  | [] => false
  | c :: rest =>
    (decide ((c :: rest).take 8 = "Chapter ".toList)
      && (match (c :: rest).drop 8 with
          | d :: _ => d.isDigit
          | [] => false))
    || specHasChapterPattern rest

/-! Basic lemmas about the string model. -/

theorem splitOnChar_ne_nil (sep : Char) (s : Str) : splitOnChar sep s ≠ [] := by
  induction s with
  | nil => simp [splitOnChar]
  | cons c cs ih =>
    simp only [splitOnChar]
    by_cases h : c = sep
    · simp [h]
    · simp only [h, if_false]
      cases hs : splitOnChar sep cs with
      | nil => simp
      | cons p ps => simp

theorem splitOnChar_of_not_mem (sep : Char) (s : Str) (h : sep ∉ s) :
    splitOnChar sep s = [s] := by
  induction s with
  | nil => rfl
  | cons c cs ih =>
    have hc : c ≠ sep := fun hc => h (hc ▸ List.mem_cons_self c cs)
    have hcs : sep ∉ cs := fun hm => h (List.mem_cons_of_mem _ hm)
    simp only [splitOnChar, hc, if_false]
    rw [ih hcs]

theorem splitOnChar_append_sep (sep : Char) (s1 s2 : Str) (h : sep ∉ s1) :
    splitOnChar sep (s1 ++ sep :: s2) = s1 :: splitOnChar sep s2 := by
  induction s1 with
  | nil => simp [splitOnChar]
  | cons c cs ih =>
    have hc : c ≠ sep := fun hc => h (hc ▸ List.mem_cons_self c cs)
    have hcs : sep ∉ cs := fun hm => h (List.mem_cons_of_mem _ hm)
    simp only [List.cons_append, splitOnChar, hc, if_false]
    rw [List.append_eq, ih hcs]

theorem splitOnChar_joinTokens (ts : List Str) (hne : ts ≠ [])
    (h : ∀ t ∈ ts, ',' ∉ t) : splitOnChar ',' (joinTokens ts) = ts := by
  induction ts with
  | nil => exact absurd rfl hne
  | cons t ts ih =>
    cases ts with
    | nil =>
      exact splitOnChar_of_not_mem ',' t (h t (List.mem_cons_self _ _))
    | cons t2 ts2 =>
      have ht : ',' ∉ t := h t (List.mem_cons_self _ _)
      have hrest : ∀ u ∈ t2 :: ts2, ',' ∉ u :=
        fun u hu => h u (List.mem_cons_of_mem _ hu)
      show splitOnChar ',' (t ++ ',' :: joinTokens (t2 :: ts2)) = _
      rw [splitOnChar_append_sep ',' t _ ht, ih (by simp) hrest]

/-! Lemmas about the set-map model. -/

theorem mem_insertChapter (m : List Rat) (c v : Rat) :
    v ∈ insertChapter m c ↔ v ∈ m ∨ v = c := by
  unfold insertChapter
  by_cases h : c ∈ m
  · simp only [h, if_true]
    constructor
    · exact Or.inl
    · rintro (hv | rfl)
      · exact hv
      · exact h
  · simp [h]

theorem nodup_insertChapter (m : List Rat) (c : Rat) (h : m.Nodup) :
    (insertChapter m c).Nodup := by
  unfold insertChapter
  by_cases hc : c ∈ m
  · simpa [hc]
  · simp [hc, List.nodup_append, h]

theorem mem_rangeFold (avail : List Rat) (s e : Rat) (m : List Rat) (v : Rat) :
    v ∈ avail.foldl
        (fun acc c => if s ≤ c ∧ c ≤ e then insertChapter acc c else acc) m
      ↔ v ∈ m ∨ (v ∈ avail ∧ s ≤ v ∧ v ≤ e) := by
  induction avail generalizing m with
  | nil => simp
  | cons a rest ih =>
    simp only [List.foldl_cons]
    by_cases ha : s ≤ a ∧ a ≤ e
    · rw [if_pos ha, ih]
      rw [mem_insertChapter]
      constructor
      · rintro ((hv | rfl) | ⟨hmem, hle⟩)
        · exact Or.inl hv
        · exact Or.inr ⟨List.mem_cons_self _ _, ha⟩
        · exact Or.inr ⟨List.mem_cons_of_mem _ hmem, hle⟩
      · rintro (hv | ⟨hmem, hle⟩)
        · exact Or.inl (Or.inl hv)
        · rcases List.mem_cons.mp hmem with rfl | hmem2
          · exact Or.inl (Or.inr rfl)
          · exact Or.inr ⟨hmem2, hle⟩
    · rw [if_neg ha, ih]
      constructor
      · rintro (hv | ⟨hmem, hle⟩)
        · exact Or.inl hv
        · exact Or.inr ⟨List.mem_cons_of_mem _ hmem, hle⟩
      · rintro (hv | ⟨hmem, hle⟩)
        · exact Or.inl hv
        · rcases List.mem_cons.mp hmem with rfl | hmem2
          · exact absurd hle ha
          · exact Or.inr ⟨hmem2, hle⟩

theorem nodup_rangeFold (avail : List Rat) (s e : Rat) (m : List Rat)
    (h : m.Nodup) :
    (avail.foldl
      (fun acc c => if s ≤ c ∧ c ≤ e then insertChapter acc c else acc)
      m).Nodup := by
  induction avail generalizing m with
  | nil => exact h
  | cons a rest ih =>
    simp only [List.foldl_cons]
    by_cases ha : s ≤ a ∧ a ≤ e
    · rw [if_pos ha]
      exact ih _ (nodup_insertChapter _ _ h)
    · rw [if_neg ha]
      exact ih _ h

theorem mem_mapToSlice (m : List Rat) (v : Rat) :
    v ∈ mapToSlice m ↔ v ∈ m :=
  (List.perm_insertionSort _ m).mem_iff

theorem sorted_mapToSlice (m : List Rat) :
    (mapToSlice m).Sorted (· ≤ ·) :=
  List.sorted_insertionSort _ m

theorem nodup_mapToSlice (m : List Rat) (h : m.Nodup) :
    (mapToSlice m).Nodup :=
  (List.perm_insertionSort _ m).nodup_iff.mpr h

/-! Lemmas re-expressing the parser on decomposed inputs. -/

theorem parseChapterSelection_single (input : Str) (avail : List Rat)
    (h : ',' ∉ input) :
    parseChapterSelection input avail =
      match parseToken avail [] input with
      | .error e => .error e
      | .ok m => .ok (mapToSlice m) := by
  unfold parseChapterSelection
  rw [splitOnChar_of_not_mem ',' input h]
  cases h' : parseToken avail [] input with
  | error e => simp [List.foldlM, h', Bind.bind, Except.bind]
  | ok m => simp [List.foldlM, h', Bind.bind, Except.bind, pure, Except.pure]

theorem parseToken_range (avail m : List Rat) (sx sy : Str)
    (hsx : '-' ∉ sx) (hsy : '-' ∉ sy) :
    parseToken avail m (sx ++ '-' :: sy) =
      match parseRange sx sy with
      | .error e => .error e
      | .ok (s, e) =>
        .ok (avail.foldl
          (fun acc c => if s ≤ c ∧ c ≤ e then insertChapter acc c else acc)
          m) := by
  have hm : '-' ∈ sx ++ '-' :: sy := List.mem_append.mpr (Or.inr (by simp))
  unfold parseToken
  rw [if_pos hm, splitOnChar_append_sep '-' sx sy hsx,
    splitOnChar_of_not_mem '-' sy hsy]

theorem parseRange_of_parse (sx sy : Str) (x y : Rat)
    (hx : parseFloat (trimSpace sx) = some x)
    (hy : parseFloat (trimSpace sy) = some y) :
    parseRange sx sy =
      if x > y then .error (.invalidRange sx sy) else .ok (x, y) := by
  unfold parseRange
  rw [hx, hy]

/-- C1: a range token whose two bounds parse contributes, when the bounds are
ordered, exactly the members of the available list lying inclusively between
them (hence a subset of available), and fails with the invalid-range error
when the start exceeds the end. -/
theorem claim1_range_token (avail : List Rat) (sx sy : Str) (x y : Rat)
    (hsx : '-' ∉ sx) (hsy : '-' ∉ sy) (hcx : ',' ∉ sx) (hcy : ',' ∉ sy)
    (hx : parseFloat (trimSpace sx) = some x)
    (hy : parseFloat (trimSpace sy) = some y) :
    (x ≤ y → ∃ l, parseChapterSelection (sx ++ '-' :: sy) avail = .ok l ∧
      ∀ v, v ∈ l ↔ v ∈ avail ∧ x ≤ v ∧ v ≤ y) ∧
    (x > y → parseChapterSelection (sx ++ '-' :: sy) avail
      = .error (.invalidRange sx sy)) := by
  have hcomma : ',' ∉ sx ++ '-' :: sy := by
    intro hmem
    rcases List.mem_append.mp hmem with h1 | h2
    · exact hcx h1
    · rcases List.mem_cons.mp h2 with h3 | h4
      · exact absurd h3 (by decide)
      · exact hcy h4
  rw [parseChapterSelection_single _ _ hcomma,
    parseToken_range avail [] sx sy hsx hsy, parseRange_of_parse sx sy x y hx hy]
  constructor
  · intro hle
    rw [if_neg (not_lt.mpr hle)]
    refine ⟨_, rfl, ?_⟩
    intro v
    rw [mem_mapToSlice, mem_rangeFold]
    simp
  · intro hgt
    rw [if_pos hgt]

/-- Witness for C1 at a concrete range and available list. -/
theorem claim1_range_token_witness :
    (('-' ∉ ("1".toList : Str)) ∧ parseFloat (trimSpace "1".toList) = some 1 ∧
      (1 : Rat) ≤ 2) ∧
    (∃ l, parseChapterSelection ("1".toList ++ '-' :: "2".toList)
        [1, mkRat 5 2, 3] = .ok l ∧
      ∀ v, v ∈ l ↔ v ∈ [(1 : Rat), mkRat 5 2, 3] ∧ 1 ≤ v ∧ v ≤ 2) :=
  ⟨⟨by decide, by decide, by decide⟩,
    (claim1_range_token [1, mkRat 5 2, 3] "1".toList "2".toList 1 2
      (by decide) (by decide) (by decide) (by decide) (by decide)
      (by decide)).1 (by decide)⟩

theorem parseToken_single (avail m : List Rat) (t : Str) (x : Rat)
    (hd : '-' ∉ t) (hx : parseFloat (trimSpace t) = some x) :
    parseToken avail m t = .ok (insertChapter m x) := by
  unfold parseToken
  rw [if_neg hd, hx]

theorem foldlM_numericTokens (avail : List Rat) (ts : List Str)
    (vals : Str → Rat)
    (h : ∀ t ∈ ts, '-' ∉ t ∧ parseFloat (trimSpace t) = some (vals t)) :
    ∀ m, ∃ l, ts.foldlM (parseToken avail) m = .ok l ∧
      (∀ v, v ∈ l ↔ v ∈ m ∨ ∃ t ∈ ts, vals t = v) ∧ (m.Nodup → l.Nodup) := by
  induction ts with
  | nil => exact fun m => ⟨m, rfl, by simp, id⟩
  | cons t ts ih =>
    intro m
    have ht := h t (List.mem_cons_self _ _)
    have hrest : ∀ u ∈ ts, '-' ∉ u ∧ parseFloat (trimSpace u) = some (vals u) :=
      fun u hu => h u (List.mem_cons_of_mem _ hu)
    obtain ⟨l, hl, hmem, hnd⟩ := ih hrest (insertChapter m (vals t))
    refine ⟨l, ?_, ?_, ?_⟩
    · rw [List.foldlM_cons, parseToken_single avail m t (vals t) ht.1 ht.2]
      simpa [Bind.bind, Except.bind] using hl
    · intro v
      rw [hmem v, mem_insertChapter]
      constructor
      · rintro ((hv | rfl) | ⟨u, hu, huv⟩)
        · exact Or.inl hv
        · exact Or.inr ⟨t, List.mem_cons_self _ _, rfl⟩
        · exact Or.inr ⟨u, List.mem_cons_of_mem _ hu, huv⟩
      · rintro (hv | ⟨u, hu, huv⟩)
        · exact Or.inl (Or.inl hv)
        · rcases List.mem_cons.mp hu with rfl | hu2
          · exact Or.inl (Or.inr huv.symm)
          · exact Or.inr ⟨u, hu2, huv⟩
    · intro hm
      exact hnd (nodup_insertChapter _ _ hm)

theorem parseSelection_numeric (avail : List Rat) (ts : List Str)
    (vals : Str → Rat) (hne : ts ≠ [])
    (h : ∀ t ∈ ts, '-' ∉ t ∧ ',' ∉ t ∧
      parseFloat (trimSpace t) = some (vals t)) :
    ∃ l, parseChapterSelection (joinTokens ts) avail = .ok l ∧
      l.Sorted (· ≤ ·) ∧ l.Nodup ∧ ∀ v, v ∈ l ↔ ∃ t ∈ ts, vals t = v := by
  obtain ⟨l0, hl0, hmem, hnd⟩ :=
    foldlM_numericTokens avail ts vals
      (fun t ht => ⟨(h t ht).1, (h t ht).2.2⟩) []
  unfold parseChapterSelection
  rw [splitOnChar_joinTokens ts hne (fun t ht => (h t ht).2.1), hl0]
  refine ⟨mapToSlice l0, rfl, sorted_mapToSlice l0,
    nodup_mapToSlice l0 (hnd List.nodup_nil), ?_⟩
  intro v
  rw [mem_mapToSlice, hmem v]
  simp

/-- C2: a comma-separated list of parsing numeric tokens yields exactly the
parsed values, duplicate-free and sorted ascending, and the result depends
only on the set of values, not on token order or duplication. -/
theorem claim2_sorted_dedup (avail : List Rat) (ts : List Str)
    (vals : Str → Rat) (hne : ts ≠ [])
    (h : ∀ t ∈ ts, '-' ∉ t ∧ ',' ∉ t ∧
      parseFloat (trimSpace t) = some (vals t)) :
    (∃ l, parseChapterSelection (joinTokens ts) avail = .ok l ∧
      l.Sorted (· ≤ ·) ∧ l.Nodup ∧ ∀ v, v ∈ l ↔ ∃ t ∈ ts, vals t = v) ∧
    (∀ ts2 vals2, ts2 ≠ [] →
      (∀ t ∈ ts2, '-' ∉ t ∧ ',' ∉ t ∧
        parseFloat (trimSpace t) = some (vals2 t)) →
      (∀ v ∈ ts.map vals, v ∈ ts2.map vals2) →
      (∀ v ∈ ts2.map vals2, v ∈ ts.map vals) →
      parseChapterSelection (joinTokens ts2) avail
        = parseChapterSelection (joinTokens ts) avail) := by
  obtain ⟨l1, hl1, hs1, hn1, hm1⟩ := parseSelection_numeric avail ts vals hne h
  refine ⟨⟨l1, hl1, hs1, hn1, hm1⟩, ?_⟩
  intro ts2 vals2 hne2 h2 hsub1 hsub2
  obtain ⟨l2, hl2, hs2, hn2, hm2⟩ :=
    parseSelection_numeric avail ts2 vals2 hne2 h2
  have hmm : ∀ v, v ∈ l2 ↔ v ∈ l1 := by
    intro v
    rw [hm1 v, hm2 v]
    constructor
    · intro hv
      have : v ∈ ts2.map vals2 := List.mem_map.mpr
        (by obtain ⟨t, ht, rfl⟩ := hv; exact ⟨t, ht, rfl⟩)
      obtain ⟨t, ht, rfl⟩ := List.mem_map.mp (hsub2 v this)
      exact ⟨t, ht, rfl⟩
    · intro hv
      have : v ∈ ts.map vals := List.mem_map.mpr
        (by obtain ⟨t, ht, rfl⟩ := hv; exact ⟨t, ht, rfl⟩)
      obtain ⟨t, ht, rfl⟩ := List.mem_map.mp (hsub1 v this)
      exact ⟨t, ht, rfl⟩
  have hperm : List.Perm l2 l1 := (List.perm_ext_iff_of_nodup hn2 hn1).mpr hmm
  have heq : l2 = l1 := List.eq_of_perm_of_sorted hperm hs2 hs1
  rw [hl1, hl2, heq]

/-- Witness for C2 at concrete duplicated and reordered token lists. -/
theorem claim2_sorted_dedup_witness :
    (∀ t ∈ (["1".toList, "1".toList, "2".toList] : List Str),
      '-' ∉ t ∧ ',' ∉ t ∧ parseFloat (trimSpace t)
        = some (if t = "1".toList then (1 : Rat) else 2)) ∧
    (∃ l, parseChapterSelection
        (joinTokens ["1".toList, "1".toList, "2".toList]) [] = .ok l ∧
      l.Sorted (· ≤ ·) ∧ l.Nodup ∧
      ∀ v, v ∈ l ↔ ∃ t ∈ (["1".toList, "1".toList, "2".toList] : List Str),
        (if t = "1".toList then (1 : Rat) else 2) = v) ∧
    parseChapterSelection (joinTokens ["2".toList, "1".toList]) []
      = parseChapterSelection (joinTokens ["1".toList, "1".toList, "2".toList])
          [] :=
  ⟨by decide,
    (claim2_sorted_dedup [] ["1".toList, "1".toList, "2".toList]
      (fun t => if t = "1".toList then (1 : Rat) else 2) (by decide)
      (by decide)).1,
    (claim2_sorted_dedup [] ["1".toList, "1".toList, "2".toList]
      (fun t => if t = "1".toList then (1 : Rat) else 2) (by decide)
      (by decide)).2 ["2".toList, "1".toList]
      (fun t => if t = "1".toList then (1 : Rat) else 2) (by decide)
      (by decide) (by decide) (by decide)⟩

theorem parseToken_of_split2 (avail m : List Rat) (p p0 p1 : Str)
    (hd : '-' ∈ p) (hsp : splitOnChar '-' p = [p0, p1]) :
    parseToken avail m p =
      match parseRange p0 p1 with
      | .error e => .error e
      | .ok (s, e) =>
        .ok (avail.foldl
          (fun acc c => if s ≤ c ∧ c ≤ e then insertChapter acc c else acc)
          m) := by
  unfold parseToken
  rw [if_pos hd, hsp]

theorem parseToken_badsplit (avail m : List Rat) (p : Str)
    (hd : '-' ∈ p) (hlen : (splitOnChar '-' p).length ≠ 2) :
    parseToken avail m p = .error (.invalidRangeFormat p) := by
  unfold parseToken
  rw [if_pos hd]
  rcases hsp : splitOnChar '-' p with _ | ⟨p0, _ | ⟨p1, _ | ⟨p2, ps⟩⟩⟩
  · rfl
  · rfl
  · refine absurd ?_ hlen
    rw [hsp]
    rfl
  · rfl

theorem parseRange_badstart (p0 p1 : Str)
    (h : parseFloat (trimSpace p0) = none) :
    parseRange p0 p1 = .error (.invalidNumber p0) := by
  unfold parseRange
  rw [h]

theorem parseRange_badend (p0 p1 : Str) (x : Rat)
    (hx : parseFloat (trimSpace p0) = some x)
    (h : parseFloat (trimSpace p1) = none) :
    parseRange p0 p1 = .error (.invalidNumber p1) := by
  unfold parseRange
  rw [hx, h]

theorem foldlM_error_of_mem (avail : List Rat) (ts : List Str) (p : Str)
    (hp : p ∈ ts)
    (hfail : ∀ m, ∃ e, parseToken avail m p = .error e) :
    ∀ m, ∃ e, ts.foldlM (parseToken avail) m = .error e := by
  induction ts with
  | nil => cases hp
  | cons t ts ih =>
    intro m
    rcases List.mem_cons.mp hp with rfl | hp2
    · obtain ⟨e, he⟩ := hfail m
      refine ⟨e, ?_⟩
      rw [List.foldlM_cons, he]
      rfl
    · cases ht : parseToken avail m t with
      | error e =>
        refine ⟨e, ?_⟩
        rw [List.foldlM_cons, ht]
        rfl
      | ok m2 =>
        obtain ⟨e, he⟩ := ih hp2 m2
        refine ⟨e, ?_⟩
        rw [List.foldlM_cons, ht]
        simpa [Bind.bind, Except.bind] using he

theorem parseSelection_error_of_badToken (input : Str) (avail : List Rat)
    (p : Str) (hp : p ∈ splitOnChar ',' input)
    (hfail : ∀ m, ∃ e, parseToken avail m p = .error e) :
    ∃ e, parseChapterSelection input avail = .error e := by
  obtain ⟨e, he⟩ := foldlM_error_of_mem avail _ p hp hfail []
  refine ⟨e, ?_⟩
  unfold parseChapterSelection
  rw [he]

/-- C3: malformed range tokens are rejected: a dash-containing token that
does not split into exactly two pieces fails with the invalid-range-format
error, a range whose start or end does not parse fails with the
invalid-number error, and an input containing such a token anywhere never
parses successfully. -/
theorem claim3_malformed_ranges :
    (∀ (avail : List Rat) (p : Str), ',' ∉ p → '-' ∈ p →
      (splitOnChar '-' p).length ≠ 2 →
      parseChapterSelection p avail = .error (.invalidRangeFormat p)) ∧
    (∀ (avail : List Rat) (p0 p1 : Str), '-' ∉ p0 → '-' ∉ p1 →
      ',' ∉ p0 → ',' ∉ p1 → parseFloat (trimSpace p0) = none →
      parseChapterSelection (p0 ++ '-' :: p1) avail
        = .error (.invalidNumber p0)) ∧
    (∀ (avail : List Rat) (p0 p1 : Str) (x : Rat), '-' ∉ p0 → '-' ∉ p1 →
      ',' ∉ p0 → ',' ∉ p1 → parseFloat (trimSpace p0) = some x →
      parseFloat (trimSpace p1) = none →
      parseChapterSelection (p0 ++ '-' :: p1) avail
        = .error (.invalidNumber p1)) ∧
    (∀ (input : Str) (avail : List Rat) (p : Str),
      p ∈ splitOnChar ',' input → '-' ∈ p →
      ((splitOnChar '-' p).length ≠ 2 ∨
        ∃ p0 p1, splitOnChar '-' p = [p0, p1] ∧
          (parseFloat (trimSpace p0) = none ∨
            parseFloat (trimSpace p1) = none)) →
      ∃ e, parseChapterSelection input avail = .error e) := by
  refine ⟨?_, ?_, ?_, ?_⟩
  · intro avail p hc hd hlen
    rw [parseChapterSelection_single p avail hc,
      parseToken_badsplit avail [] p hd hlen]
  · intro avail p0 p1 h0 h1 hc0 hc1 hbad
    have hc : ',' ∉ p0 ++ '-' :: p1 := by
      intro hmem
      rcases List.mem_append.mp hmem with hx | hx
      · exact hc0 hx
      · rcases List.mem_cons.mp hx with hy | hy
        · exact absurd hy (by decide)
        · exact hc1 hy
    rw [parseChapterSelection_single _ avail hc,
      parseToken_range avail [] p0 p1 h0 h1, parseRange_badstart p0 p1 hbad]
  · intro avail p0 p1 x h0 h1 hc0 hc1 hx hbad
    have hc : ',' ∉ p0 ++ '-' :: p1 := by
      intro hmem
      rcases List.mem_append.mp hmem with hy | hy
      · exact hc0 hy
      · rcases List.mem_cons.mp hy with hz | hz
        · exact absurd hz (by decide)
        · exact hc1 hz
    rw [parseChapterSelection_single _ avail hc,
      parseToken_range avail [] p0 p1 h0 h1,
      parseRange_badend p0 p1 x hx hbad]
  · intro input avail p hp hd hbad
    apply parseSelection_error_of_badToken input avail p hp
    intro m
    rcases hbad with hlen | ⟨p0, p1, hsp, hpf⟩
    · exact ⟨_, parseToken_badsplit avail m p hd hlen⟩
    · rw [parseToken_of_split2 avail m p p0 p1 hd hsp]
      rcases hpf with h0 | h1
      · rw [parseRange_badstart p0 p1 h0]
        exact ⟨_, rfl⟩
      · cases hx : parseFloat (trimSpace p0) with
        | none =>
          rw [parseRange_badstart p0 p1 hx]
          exact ⟨_, rfl⟩
        | some x =>
          rw [parseRange_badend p0 p1 x hx h1]
          exact ⟨_, rfl⟩

/-- Witness for C3 at the concrete malformed tokens 1-2-3 and -5 and 5-. -/
theorem claim3_malformed_ranges_witness :
    ((',' ∉ ("1-2-3".toList : Str)) ∧ ('-' ∈ ("1-2-3".toList : Str)) ∧
      (splitOnChar '-' "1-2-3".toList).length ≠ 2 ∧
      parseChapterSelection "1-2-3".toList [1]
        = .error (.invalidRangeFormat "1-2-3".toList)) ∧
    (parseFloat (trimSpace ([] : Str)) = none ∧
      parseChapterSelection ([] ++ '-' :: "5".toList) [1]
        = .error (.invalidNumber [])) ∧
    (parseFloat (trimSpace "5".toList) = some 5 ∧
      parseChapterSelection ("5".toList ++ '-' :: []) [1]
        = .error (.invalidNumber [])) :=
  ⟨⟨by decide, by decide, by decide,
      claim3_malformed_ranges.1 [1] "1-2-3".toList (by decide) (by decide)
        (by decide)⟩,
    ⟨by decide,
      claim3_malformed_ranges.2.1 [1] [] "5".toList (by decide) (by decide)
        (by decide) (by decide) (by decide)⟩,
    ⟨by decide,
      claim3_malformed_ranges.2.2.1 [1] "5".toList [] 5 (by decide)
        (by decide) (by decide) (by decide) (by decide) (by decide)⟩⟩

/-- C4: a parsing single-number token is included in the selection exactly as
parsed, with no membership check against the available chapters; downstream,
a selected number with no chapter in the map is silently dropped by
getSelectedChapters, and every returned chapter comes from a lookup of a
selected number (no placeholder is ever produced). -/
theorem claim4_unchecked_single :
    (∀ (avail : List Rat) (t : Str) (x : Rat), '-' ∉ t → ',' ∉ t →
      parseFloat (trimSpace t) = some x →
      parseChapterSelection t avail = .ok [x]) ∧
    (∀ (ns : List Rat) (m : List (Rat × Chapter)) (x : Rat),
      m.lookup x = none →
      getSelectedChapters (ns ++ [x]) m = getSelectedChapters ns m) ∧
    (∀ (ns : List Rat) (m : List (Rat × Chapter)) (c : Chapter),
      c ∈ getSelectedChapters ns m → ∃ n ∈ ns, m.lookup n = some c) := by
  refine ⟨?_, ?_, ?_⟩
  · intro avail t x hd hc hx
    rw [parseChapterSelection_single t avail hc,
      parseToken_single avail [] t x hd hx]
    rfl
  · intro ns m x hx
    unfold getSelectedChapters
    rw [List.filterMap_append]
    simp [hx]
  · intro ns m c hc
    exact List.mem_filterMap.mp hc

/-- Witness for C4: the number 5 is selected although unavailable, then
resolves to nothing against a chapter map holding only chapter 1. -/
theorem claim4_unchecked_single_witness :
    (parseFloat (trimSpace "5".toList) = some 5 ∧
      parseChapterSelection "5".toList [1, 2, 3] = .ok [5]) ∧
    ((([(1, ⟨1, []⟩)] : List (Rat × Chapter)).lookup (5 : Rat) = none) ∧
      getSelectedChapters ([] ++ [5]) [(1, ⟨1, []⟩)]
        = getSelectedChapters [] [(1, ⟨1, []⟩)]) :=
  ⟨⟨by decide,
      claim4_unchecked_single.1 [1, 2, 3] "5".toList 5 (by decide) (by decide)
        (by decide)⟩,
    ⟨by decide,
      claim4_unchecked_single.2.1 [] [(1, ⟨1, []⟩)] 5 (by decide)⟩⟩

theorem rangeFold_no_match (avail : List Rat) (s e : Rat) :
    ∀ m, (∀ v ∈ avail, ¬ (s ≤ v ∧ v ≤ e)) →
      avail.foldl
        (fun acc c => if s ≤ c ∧ c ≤ e then insertChapter acc c else acc) m
        = m := by
  induction avail with
  | nil => intro m h; rfl
  | cons a rest ih =>
    intro m h
    simp only [List.foldl_cons]
    rw [if_neg (h a (List.mem_cons_self _ _))]
    exact ih m (fun v hv => h v (List.mem_cons_of_mem a hv))

theorem foldlM_keep (avail : List Rat) (ts : List Str)
    (h : ∀ t ∈ ts, ∀ m, parseToken avail m t = .ok m) :
    ∀ m, ts.foldlM (parseToken avail) m = .ok m := by
  induction ts with
  | nil => exact fun m => rfl
  | cons t ts ih =>
    intro m
    rw [List.foldlM_cons, h t (List.mem_cons_self _ _) m]
    simpa [Bind.bind, Except.bind] using
      ih (fun u hu => h u (List.mem_cons_of_mem _ hu)) m

/-- C8: an input all of whose tokens parse but contribute nothing — here, a
non-empty list of well-formed ordered range tokens matching no available
chapter — parses successfully to the empty selection rather than failing. -/
theorem claim8_empty_selection_ok (avail : List Rat)
    (ps : List (Str × Str)) (xv yv : Str × Str → Rat) (hne : ps ≠ [])
    (h : ∀ p ∈ ps, '-' ∉ p.1 ∧ '-' ∉ p.2 ∧ ',' ∉ p.1 ∧ ',' ∉ p.2 ∧
      parseFloat (trimSpace p.1) = some (xv p) ∧
      parseFloat (trimSpace p.2) = some (yv p) ∧ xv p ≤ yv p ∧
      ∀ v ∈ avail, ¬ (xv p ≤ v ∧ v ≤ yv p)) :
    parseChapterSelection
      (joinTokens (ps.map (fun p => p.1 ++ '-' :: p.2))) avail = .ok [] := by
  have hne2 : ps.map (fun p => p.1 ++ '-' :: p.2) ≠ [] := by
    simpa using hne
  have hcomma : ∀ t ∈ ps.map (fun p => p.1 ++ '-' :: p.2), ',' ∉ t := by
    intro t ht hmem
    obtain ⟨p, hp, rfl⟩ := List.mem_map.mp ht
    obtain ⟨_, _, hc1, hc2, _⟩ := h p hp
    rcases List.mem_append.mp hmem with hx | hx
    · exact hc1 hx
    · rcases List.mem_cons.mp hx with hy | hy
      · exact absurd hy (by decide)
      · exact hc2 hy
  unfold parseChapterSelection
  rw [splitOnChar_joinTokens _ hne2 hcomma]
  rw [foldlM_keep avail _ ?_ []]
  · rfl
  · intro t ht m
    obtain ⟨p, hp, rfl⟩ := List.mem_map.mp ht
    obtain ⟨hd1, hd2, _, _, hx, hy, hle, hnomatch⟩ := h p hp
    rw [parseToken_range avail m p.1 p.2 hd1 hd2,
      parseRange_of_parse p.1 p.2 (xv p) (yv p) hx hy,
      if_neg (not_lt.mpr hle)]
    exact congrArg Except.ok (rangeFold_no_match avail (xv p) (yv p) m hnomatch)

/-- Witness for C8: the range 4-9 over available chapters 1..3 parses to the
empty selection. -/
theorem claim8_empty_selection_ok_witness :
    (parseFloat (trimSpace "4".toList) = some 4 ∧
      parseFloat (trimSpace "9".toList) = some 9 ∧
      (4 : Rat) ≤ 9 ∧
      ∀ v ∈ ([1, 2, 3] : List Rat), ¬ ((4 : Rat) ≤ v ∧ v ≤ 9)) ∧
    parseChapterSelection
      (joinTokens ([("4".toList, "9".toList)].map
        (fun p => p.1 ++ '-' :: p.2))) [1, 2, 3] = .ok [] :=
  ⟨⟨by decide, by decide, by decide, by decide⟩,
    claim8_empty_selection_ok [1, 2, 3] [("4".toList, "9".toList)]
      (fun _ => 4) (fun _ => 9) (by decide) (by decide)⟩

/-! Lemmas about decimal formatting. -/

theorem natDigitsCore_stable (f1 : Nat) :
    ∀ f2 n, n < f1 → n < f2 → natDigitsCore f1 n = natDigitsCore f2 n := by
  induction f1 with
  | zero => intro f2 n h1 _; omega
  | succ f ih =>
    intro f2 n h1 h2
    cases f2 with
    | zero => omega
    | succ g =>
      simp only [natDigitsCore]
      by_cases hn : n < 10
      · simp [hn]
      · simp only [hn, if_false]
        have hdiv : n / 10 < n := Nat.div_lt_self (by omega) (by omega)
        rw [ih g (n / 10) (by omega) (by omega)]

theorem natDigits_eq (n : Nat) :
    natDigits n =
      if n < 10 then [Nat.digitChar n]
      else natDigits (n / 10) ++ [Nat.digitChar (n % 10)] := by
  show natDigitsCore (n + 1) n = _
  by_cases hn : n < 10
  · simp [natDigitsCore, hn]
  · simp only [natDigitsCore, hn, if_false]
    have hdiv : n / 10 < n := Nat.div_lt_self (by omega) (by omega)
    rw [natDigitsCore_stable n (n / 10 + 1) (n / 10) (by omega) (by omega)]
    rfl

theorem format03d_eq_of_le (n : Nat) (h : n ≤ 999) :
    format03d n = [Nat.digitChar (n / 100), Nat.digitChar (n / 10 % 10),
      Nat.digitChar (n % 10)] := by
  by_cases h1 : n < 10
  · have e1 : natDigits n = [Nat.digitChar n] := by rw [natDigits_eq]; simp [h1]
    unfold format03d
    rw [e1]
    have d1 : n / 100 = 0 := by omega
    have d2 : n / 10 % 10 = 0 := by omega
    have d3 : n % 10 = n := by omega
    rw [d1, d2, d3]
    rfl
  · by_cases h2 : n < 100
    · have e0 : natDigits (n / 10) = [Nat.digitChar (n / 10)] := by
        rw [natDigits_eq]
        simp only [if_pos (show n / 10 < 10 by omega)]
      have e1 : natDigits n
          = [Nat.digitChar (n / 10), Nat.digitChar (n % 10)] := by
        rw [natDigits_eq]
        simp only [if_neg h1]
        rw [e0]
        rfl
      unfold format03d
      rw [e1]
      have d1 : n / 100 = 0 := by omega
      have d2 : n / 10 % 10 = n / 10 := by omega
      rw [d1, d2]
      rfl
    · have e0 : natDigits (n / 100) = [Nat.digitChar (n / 100)] := by
        rw [natDigits_eq]
        simp only [if_pos (show n / 100 < 10 by omega)]
      have e1 : natDigits (n / 10)
          = [Nat.digitChar (n / 10 / 10), Nat.digitChar (n / 10 % 10)] := by
        rw [natDigits_eq]
        simp only [if_neg (show ¬ n / 10 < 10 by omega)]
        have : n / 10 / 10 = n / 100 := by omega
        rw [this, e0]
        rfl
      have e2 : natDigits n = [Nat.digitChar (n / 100),
          Nat.digitChar (n / 10 % 10), Nat.digitChar (n % 10)] := by
        rw [natDigits_eq]
        simp only [if_neg h1]
        rw [e1]
        have : n / 10 / 10 = n / 100 := by omega
        rw [this]
        rfl
      unfold format03d
      rw [e2]
      rfl

theorem digitChar_lt_digitChar :
    ∀ x y : Fin 10, x < y → Nat.digitChar x.val < Nat.digitChar y.val := by
  decide

theorem lex_format03d (a b : Nat) (ha : a ≤ 999) (hb : b ≤ 999)
    (hab : a < b) (u v : Str) :
    List.Lex (· < ·) (format03d a ++ u) (format03d b ++ v) := by
  rw [format03d_eq_of_le a ha, format03d_eq_of_le b hb]
  simp only [List.cons_append, List.nil_append]
  by_cases h1 : a / 100 < b / 100
  · exact List.Lex.rel
      (digitChar_lt_digitChar ⟨a / 100, by omega⟩ ⟨b / 100, by omega⟩ h1)
  · have e1 : a / 100 = b / 100 := by omega
    rw [e1]
    apply List.Lex.cons
    by_cases h2 : a / 10 % 10 < b / 10 % 10
    · exact List.Lex.rel
        (digitChar_lt_digitChar ⟨a / 10 % 10, by omega⟩
          ⟨b / 10 % 10, by omega⟩ h2)
    · have e2 : a / 10 % 10 = b / 10 % 10 := by omega
      rw [e2]
      apply List.Lex.cons
      have h3 : a % 10 < b % 10 := by omega
      exact List.Lex.rel
        (digitChar_lt_digitChar ⟨a % 10, by omega⟩ ⟨b % 10, by omega⟩ h3)

/-- C6: an image's destination filename is its 1-based position (index i plus
one) rendered with %03d followed by the URL extension taken verbatim (which is
either empty or starts with the dot), and for chapters of at most 999 images
the filenames of distinct positions are lexicographically ordered exactly as
the positions. -/
theorem claim6_filename_order (i j : Nat) (u v : Str)
    (hij : i < j) (hj : j + 1 ≤ 999) :
    imageFilename i u = format03d (i + 1) ++ filepathExt u ∧
    ((filepathExt u).head? = some '.' ∨ filepathExt u = []) ∧
    List.Lex (· < ·) (imageFilename i u) (imageFilename j v) := by
  refine ⟨rfl, ?_, ?_⟩
  · unfold filepathExt
    by_cases h : (u.reverse.takeWhile (fun c => c ≠ '/')).contains '.'
    · rw [if_pos h]
      exact Or.inl rfl
    · rw [if_neg h]
      exact Or.inr rfl
  · exact lex_format03d (i + 1) (j + 1) (by omega) (by omega) (by omega) _ _

/-- Witness for C6: image 7 of a chapter (index 6) is named 007.jpg and sorts
before image 8. -/
theorem claim6_filename_order_witness :
    (6 < 7 ∧ 7 + 1 ≤ 999 ∧
      imageFilename 6 "https://cdn.example/x/a.jpg".toList
        = "007.jpg".toList) ∧
    (imageFilename 6 "https://cdn.example/x/a.jpg".toList
        = format03d 7 ++ filepathExt "https://cdn.example/x/a.jpg".toList ∧
      ((filepathExt "https://cdn.example/x/a.jpg".toList).head? = some '.' ∨
        filepathExt "https://cdn.example/x/a.jpg".toList = []) ∧
      List.Lex (· < ·) (imageFilename 6 "https://cdn.example/x/a.jpg".toList)
        (imageFilename 7 "https://cdn.example/x/b.png".toList)) :=
  ⟨⟨by decide, by decide, by decide⟩,
    claim6_filename_order 6 7 "https://cdn.example/x/a.jpg".toList
      "https://cdn.example/x/b.png".toList (by decide) (by decide)⟩

/-- C5 counterexample: for the fractional chapter number 2.5 the code's %03g
formatting produces the three-character rendering 2.5 with no zero padding,
so the directory name is not the claimed zero-padded-to-three-integer-digits
form 002.5. -/
theorem claim5_counterexample :
    mkRat 5 2 = (2.5 : Rat) ∧
    chapterDirPath "d".toList "m".toList (mkRat 5 2) "t".toList
      = "d/m/2.5 t".toList ∧
    chapterDirPath "d".toList "m".toList (mkRat 5 2) "t".toList
      ≠ "d/m/002.5 t".toList := by
  refine ⟨?_, by decide, by decide⟩
  rw [Rat.mkRat_eq_div]
  norm_num

/-- C5 as amended: the output directory is base slash manga title slash the
chapter directory name, whose numeric component is the %g rendering padded to
a minimum total width of three characters — so whole numbers below 100 gain
leading zeros while a fractional number such as 2.5 is rendered 2.5 unpadded —
and whose title component is the title trimmed of surrounding spaces and dots
with every illegal character removed. -/
theorem claim5_directory_amended (base mangaTitle rawTitle : Str)
    (number : Rat) :
    chapterDirPath base mangaTitle number (getCleanChapterTitle rawTitle)
      = trimSpace (base ++ '/' :: mangaTitle ++ '/'
          :: (format03g number ++ ' ' :: getCleanChapterTitle rawTitle)) ∧
    3 ≤ (format03g number).length ∧
    (∀ c ∈ getCleanChapterTitle rawTitle, illegalChars.contains c = false) ∧
    format03g (mkRat 5 2) = "2.5".toList ∧
    format03g (2 : Rat) = "002".toList := by
  refine ⟨rfl, ?_, ?_, by decide, by decide⟩
  · unfold format03g
    by_cases h : number < 0
    · rw [if_pos h]
      simp only [List.length_cons, List.length_append, List.length_replicate]
      omega
    · rw [if_neg h]
      simp only [List.length_append, List.length_replicate]
      omega
  · intro c hc
    have h2 := List.of_mem_filter hc
    simpa using h2

/-- Witness for C5 as amended, at a raw title with surrounding dots and an
illegal character. -/
theorem claim5_directory_amended_witness :
    chapterDirPath "d".toList "m".toList (mkRat 5 2)
        (getCleanChapterTitle " .a<b. ".toList)
      = trimSpace ("d".toList ++ '/' :: "m".toList ++ '/'
          :: (format03g (mkRat 5 2)
            ++ ' ' :: getCleanChapterTitle " .a<b. ".toList)) ∧
    3 ≤ (format03g (mkRat 5 2)).length ∧
    (∀ c ∈ getCleanChapterTitle " .a<b. ".toList,
      illegalChars.contains c = false) ∧
    format03g (mkRat 5 2) = "2.5".toList ∧
    format03g (2 : Rat) = "002".toList :=
  claim5_directory_amended "d".toList "m".toList " .a<b. ".toList (mkRat 5 2)

/-! Lemmas about the archive model. -/

theorem createCbz_complete_of_ok : ∀ files : List (Str × Bool),
    (createCbzArchive files).2 = false →
    (createCbzArchive files).1 = files.map Prod.fst := by
  intro files
  induction files with
  | nil => intro _; rfl
  | cons f rest ih =>
    intro h
    obtain ⟨name, readable⟩ := f
    cases readable with
    | false => simp [createCbzArchive] at h
    | true =>
      simp only [createCbzArchive, if_true] at h ⊢
      simp only [List.map_cons]
      rw [ih h]

/-- C7 as amended: the archive is placed in the manga directory (a sibling of
the chapter directory) under the zero-padded-number-and-title name with the
cbz suffix, and the chapter directory is deleted exactly when archive creation
fully succeeded — never on failure, in which case a complete archive listing
every source file is only guaranteed on success. -/
theorem claim7_archive_amended (base mangaTitle title : Str) (number : Rat)
    (files : List (Str × Bool)) :
    cbzPath base mangaTitle number title
      = (base ++ '/' :: mangaTitle) ++ '/'
          :: (format03g number ++ ' ' :: title ++ ['.', 'c', 'b', 'z']) ∧
    ((archiveStep true files).chapterDirKept = false
      ↔ (createCbzArchive files).2 = false) ∧
    ((archiveStep true files).failed = true →
      (archiveStep true files).chapterDirKept = true) ∧
    ((archiveStep true files).failed = false →
      (archiveStep true files).archiveEntries = files.map Prod.fst) := by
  refine ⟨by simp [cbzPath], ?_, ?_, ?_⟩
  · cases h : (createCbzArchive files).2 with
    | true => simp [archiveStep, h]
    | false => simp [archiveStep, h]
  · cases h : (createCbzArchive files).2 with
    | true => simp [archiveStep, h]
    | false => simp [archiveStep, h]
  · cases h : (createCbzArchive files).2 with
    | true => simp [archiveStep, h]
    | false =>
      simp only [archiveStep, h, if_true, if_false]
      intro _
      exact createCbz_complete_of_ok files h

/-- Witness for C7 as amended at a concrete failing and a concrete succeeding
file list. -/
theorem claim7_archive_amended_witness :
    ((archiveStep true [("001.jpg".toList, true)]).failed = false →
      (archiveStep true [("001.jpg".toList, true)]).archiveEntries
        = [("001.jpg".toList, true)].map Prod.fst) ∧
    ((archiveStep true [("001.jpg".toList, false)]).failed = true →
      (archiveStep true [("001.jpg".toList, false)]).chapterDirKept = true) :=
  ⟨(claim7_archive_amended [] [] [] 1 [("001.jpg".toList, true)]).2.2.2,
    (claim7_archive_amended [] [] [] 1 [("001.jpg".toList, false)]).2.2.1⟩

/-- C7 counterexample: with a single unreadable source file the archive walk
fails and the chapter directory is kept, but the archive file has still been
created and is incomplete — archive creation is not atomic. -/
theorem claim7_counterexample :
    (archiveStep true [("001.jpg".toList, false)]).failed = true ∧
    (archiveStep true [("001.jpg".toList, false)]).chapterDirKept = true ∧
    (archiveStep true [("001.jpg".toList, false)]).archiveFileCreated = true ∧
    (archiveStep true [("001.jpg".toList, false)]).archiveEntries
      ≠ [("001.jpg".toList, false)].map Prod.fst := by
  exact ⟨rfl, rfl, rfl, by decide⟩

/-! Lemmas about the chapter-number regex model. -/

theorem matchChapterAt_some_start (s : Str) (m : Str)
    (h : matchChapterAt s = some m) :
    s.take 8 = "Chapter ".toList ∧
      ∃ d r, s.drop 8 = d :: r ∧ d.isDigit = true := by
  unfold matchChapterAt at h
  by_cases h8 : s.take 8 = "Chapter ".toList
  · refine ⟨h8, ?_⟩
    rw [if_pos h8] at h
    cases hd8 : s.drop 8 with
    | nil =>
      rw [hd8] at h
      simp at h
    | cons d r =>
      rw [hd8] at h
      by_cases hdig : d.isDigit
      · exact ⟨d, r, rfl, hdig⟩
      · simp only [List.takeWhile_cons, hdig, if_false] at h
        simp at h
  · rw [if_neg h8] at h
    exact absurd h (by simp)

theorem specPattern_false_no_match : ∀ s : Str,
    specHasChapterPattern s = false → findChapterMatch s = none := by
  intro s
  induction s with
  | nil => intro _; rfl
  | cons c rest ih =>
    intro h
    rw [specHasChapterPattern, Bool.or_eq_false_iff] at h
    obtain ⟨h1, h2⟩ := h
    show (match matchChapterAt (c :: rest) with
      | some m => some m
      | none => findChapterMatch rest) = none
    cases hmc : matchChapterAt (c :: rest) with
    | some m =>
      obtain ⟨h8, d, r, hdr, hdig⟩ := matchChapterAt_some_start _ m hmc
      rw [h8, hdr] at h1
      simp [hdig] at h1
    | none => exact ih h2

/-- C10: a chapter name in which the chapter-number pattern matches nowhere
makes getChapterNumber return the number 0 together with the nil error — the
missing number is not signalled as a failure. -/
theorem claim10_no_pattern_zero_nil (name : Str)
    (h : specHasChapterPattern name = false) :
    getChapterNumber name = (0, false) := by
  unfold getChapterNumber
  rw [specPattern_false_no_match name h]

/-- Witness for C10 at a name whose lowercase chapter word does not match the
capitalised pattern. -/
theorem claim10_no_pattern_zero_nil_witness :
    specHasChapterPattern "chapter 5 of One Piece".toList = false ∧
    getChapterNumber "chapter 5 of One Piece".toList = (0, false) :=
  ⟨by decide, claim10_no_pattern_zero_nil "chapter 5 of One Piece".toList
    (by decide)⟩

end TCB
